import Mathlib

/-!
Shallow embedding of the `time-tracker` repository's analysis core
(`src/analyse.mjs`, with the duplicate-handling passes of `src/fetch.mjs`
and `src/index.mjs`), together with proofs settling the specification
claims about it.

Timestamps are modelled as rational numbers of minutes (luxon `DateTime`
arithmetic on `minutes` is exact and fractional minutes are permitted).
A JavaScript runtime crash (TypeError / thrown Error) is modelled by
`Option`/`Except` results.
-/

namespace TimeTracker

/-- The `type` tag attached to each timeline entry in `gatherAllEvents`
(`'commit'` or `'issue'`). -/
inductive EventKind : Type
  | commit : EventKind
  | issue : EventKind
deriving DecidableEq, Repr

/-- A timeline event as built by `gatherAllEvents`: a kind tag, the `date`
field, and the opaque `data` payload (modelled by a natural number id).
The date type is a parameter: ISO strings for the timeline builder,
rational minutes for the segmentation engine. -/
structure Event (α : Type) where
  kind : EventKind
  date : α
  data : ℕ
deriving DecidableEq, Repr

/-- A raw record inside a data file (one entry of the `commits` or `issues`
array): its `date` field plus an opaque payload. -/
structure RawEntry (α : Type) where
  date : α
  data : ℕ
deriving DecidableEq, Repr

/-! ## Interval Aggregator (`getWorkDuringTimeframe` in `src/analyse.mjs`) -/

/-- A valid luxon `Interval`: two instants, start `s` and end `e`, in
minutes. luxon intervals are half-open `[s, e)`. -/
structure Iv where
  s : ℚ
  e : ℚ
deriving DecidableEq, Repr

/-- luxon `Interval.overlaps`: `this.e > other.s && this.s < other.e`,
called in the source as `timeframe.overlaps(interval)`. -/
def Iv.overlaps (timeframe interval : Iv) : Bool :=
  decide (interval.s < timeframe.e) && decide (timeframe.s < interval.e)

/-- luxon `Interval.intersection`: the interval from the later start to the
earlier end, or `null` (here `none`) when that is empty. -/
def Iv.intersection (timeframe interval : Iv) : Option Iv :=
  let s := max timeframe.s interval.s
  let e := min timeframe.e interval.e
  if e ≤ s then none else some ⟨s, e⟩

/-- One step of the `reduce` in `getWorkDuringTimeframe`:
`acc + interval.toDuration(['minutes'])`. When the intersection was `null`
the JavaScript code throws a TypeError, modelled by `none`. -/
def addDuration (acc : Option ℚ) (interval : Option Iv) : Option ℚ :=
  match acc, interval with
  | some a, some iv => some (a + (iv.e - iv.s))
  | _, _ => none

/-- `getWorkDuringTimeframe(workIntervals, timeframe)` from
`src/analyse.mjs`: filter the phases overlapping the timeframe, intersect
each with the timeframe, and sum the durations in minutes. `none` models
the TypeError thrown when an intersection is `null`. -/
def getWorkDuringTimeframe (workIntervals : List Iv) (timeframe : Iv) :
    Option ℚ :=
  ((workIntervals.filter (fun interval => Iv.overlaps timeframe interval)).map
    (fun interval => Iv.intersection timeframe interval)).foldl addDuration
    (some 0)

/-! ## Phase Segmentation (`calculateWorkPhases` in `src/analyse.mjs`) -/

/-- A phase record as accumulated by `calculateWorkPhases` before being
mapped to a luxon `Interval`: `from` is `phaseFrom`, `to` is `phaseTo`,
which is `undefined` (`none`) until the walk first assigns it. -/
structure RawPhase where
  from_ : ℚ
  to_ : Option ℚ
deriving DecidableEq, Repr

/-- The final `Interval.fromDateTimes(phase.from, phase.to)` mapping: an
invalid interval (`none`) when `to` is `undefined` or earlier than
`from`. -/
def toInterval (p : RawPhase) : Option Iv :=
  match p.to_ with
  | none => none
  | some t => if t < p.from_ then none else some ⟨p.from_, t⟩

/-- The body of the pairwise loop in `calculateWorkPhases`, acting on the
state `(phases, phaseFrom, phaseTo)` for the consecutive pair
`(timeline[i], timeline[i+1])`. When the gap in minutes exceeds the
threshold the current phase is pushed with end `from.date + 5` and
`phaseFrom` is reset to `to.date`; note that `phaseTo` is left unchanged
by that branch, exactly as in the source. Otherwise `phaseTo` becomes
`to.date`. -/
def phaseStep (threshold : ℚ) (st : List RawPhase × ℚ × Option ℚ)
    (p : Event ℚ × Event ℚ) : List RawPhase × ℚ × Option ℚ :=
  if p.2.date - p.1.date > threshold then
    (st.1 ++ [⟨st.2.1, some (p.1.date + 5)⟩], p.2.date, st.2.2)
  else
    (st.1, st.2.1, some p.2.date)

/-- `calculateWorkPhases(timeline)` from `src/analyse.mjs`, with the gap
threshold (`options.threshold`, hard-coded `60 * 4` in one variant) as a
parameter. On the empty timeline the source dereferences
`timeline[0].date` and throws a TypeError, modelled by `none`. The loop
over `i = 0 .. timeline.length - 2` is the fold of `phaseStep` over the
list of consecutive pairs; afterwards the final
`{ from: phaseFrom, to: phaseTo }` is pushed. -/
def calculateWorkPhases (threshold : ℚ) (timeline : List (Event ℚ)) :
    Option (List RawPhase) :=
  match timeline with
  | [] => none
  | e0 :: _ =>
    let st := (timeline.zip timeline.tail).foldl (phaseStep threshold)
      ([], e0.date, none)
    some (st.1 ++ [⟨st.2.1, st.2.2⟩])

/-- The number of consecutive pairs of the timeline whose gap strictly
exceeds the threshold. -/
def countStrictGaps (threshold : ℚ) (timeline : List (Event ℚ)) : ℕ :=
  (timeline.zip timeline.tail).countP
    (fun p => decide (p.2.date - p.1.date > threshold))

/-! ## Timeline Builder (`gatherAllEvents` in `src/analyse.mjs`) -/

/-- The concatenation pass of `gatherAllEvents`: for every data file, push
an event for each commit entry and then for each issue entry, in file
order. -/
def concatAllEvents
    (files : List (List (RawEntry String) × List (RawEntry String))) :
    List (Event String) :=
  files.foldl
    (fun timeline fd =>
      (timeline ++ fd.1.map (fun c => ⟨EventKind.commit, c.date, c.data⟩)) ++
        fd.2.map (fun i => ⟨EventKind.issue, i.date, i.data⟩))
    []

/-- The comparator of `gatherAllEvents`:
`a.date < b.date ? -1 : a.date > b.date ? 1 : 0`. A stable sort under this
three-way comparator is the stable merge sort under the comparison
`a.date <= b.date`. -/
def eventLe (a b : Event String) : Bool :=
  decide (a.date ≤ b.date)

/-- `gatherAllEvents` from `src/analyse.mjs`: concatenate every file's
commit and issue entries into one timeline, then sort it by date with
JavaScript's stable `Array.prototype.sort`. -/
def gatherAllEvents
    (files : List (List (RawEntry String) × List (RawEntry String))) :
    List (Event String) :=
  (concatAllEvents files).mergeSort eventLe

/-! ## Commit gathering (`src/fetch.mjs` and `src/index.mjs`) -/

/-- The slice of a fetched commit record that the duplicate handling
reads: its `sha` and the `__isSquashMerge` flag attached by
`findAssociatedPRs` / `fetchCommitsInPullRequest`. -/
structure RawCommit where
  sha : String
  isSquashMerge : Bool
deriving DecidableEq, Repr

/-- `filterPlainCommits`: keep the commits whose `__isSquashMerge` flag is
not set. -/
def filterPlainCommits (commits : List RawCommit) : List RawCommit :=
  commits.filter (fun c => !c.isSquashMerge)

/-- One step of the deduplicating `reduce` in `getCommitData` of
`src/fetch.mjs`: the accumulator is `(plainCommits, hashes)`; a commit is
kept only when its sha is not yet in `hashes`. -/
def dedupStep (acc : List RawCommit × List String) (c : RawCommit) :
    List RawCommit × List String :=
  if acc.2.contains c.sha then acc else (acc.1 ++ [c], acc.2 ++ [c.sha])

/-- The deduplicating `reduce` of `src/fetch.mjs`, keeping the first
occurrence of every sha. -/
def dedupBySha (commits : List RawCommit) : List RawCommit :=
  (commits.foldl dedupStep ([], [])).1

/-- The pure core of `getCommitData` in `src/fetch.mjs`: append every pull
request's commits to the main commit list, drop squash-merge commits, and
remove duplicate shas keeping the first occurrence. -/
def getCommitData_fetch (commits : List RawCommit)
    (prCommits : List (List RawCommit)) : List RawCommit :=
  dedupBySha (filterPlainCommits (commits ++ prCommits.flatten))

/-- One step of the duplicate-checking `reduce` of `getCommitData` in
`src/index.mjs`: accumulate the shas seen so far and
`throw Error('Duplicate!')` on a repeat; once thrown, the error
propagates. -/
def checkStep (acc : Except String (List String)) (c : RawCommit) :
    Except String (List String) :=
  match acc with
  | Except.error e => Except.error e
  | Except.ok hashes =>
    if hashes.contains c.sha then Except.error "Duplicate!"
    else Except.ok (hashes ++ [c.sha])

/-- The duplicate-checking `reduce` of `getCommitData` in
`src/index.mjs`. -/
def checkDuplicates (commits : List RawCommit) :
    Except String (List String) :=
  commits.foldl checkStep (Except.ok [])

/-- The pure core of `getCommitData` in `src/index.mjs`: append the pull
request commits, drop squash merges, then abort the run on any duplicate
sha; on success the (unchanged) plain commit list is returned. -/
def getCommitData_index (commits : List RawCommit)
    (prCommits : List (List RawCommit)) : Except String (List RawCommit) :=
  let plain := filterPlainCommits (commits ++ prCommits.flatten)
  (checkDuplicates plain).map (fun _ => plain)

/-! ## Claims about the Phase Segmentation Engine -/

/-- C1: the claimed invariant — every computed phase list is sorted
ascending, pairwise non-overlapping, and has `start <= end` for every
phase — is violated by the code. With the default threshold 240 and
events at minutes 0, 10 and 1000, the trailing isolated event produces a
final phase whose `to` is the stale provisional end 10 from the previous
phase, so the final phase has start 1000 and end 10, `start <= end`
fails, and the luxon interval built from it is invalid. -/
theorem claim1_invariant_violated :
    calculateWorkPhases 240
        [⟨EventKind.commit, 0, 0⟩, ⟨EventKind.commit, 10, 1⟩,
          ⟨EventKind.commit, 1000, 2⟩]
      = some [⟨0, some 15⟩, ⟨1000, some 10⟩]
    ∧ ¬ ((1000 : ℚ) ≤ 10)
    ∧ toInterval ⟨1000, some 10⟩ = none := by
  refine ⟨by norm_num [calculateWorkPhases, phaseStep], by norm_num, ?_⟩
  norm_num [toInterval]

/-- C2: on the empty timeline `calculateWorkPhases` dereferences
`timeline[0].date` and throws (modelled by `none`) instead of returning an
empty phase list; the aggregator itself does return zero on an empty
phase list for every query interval. -/
theorem claim2_empty_timeline :
    calculateWorkPhases 240 [] = none
    ∧ ∀ timeframe : Iv, getWorkDuringTimeframe [] timeframe = some 0 :=
  ⟨rfl, fun _ => rfl⟩

/-- C4: in each step of the pairwise walk, a gap strictly greater than the
threshold emits the current phase with end `event[i].date + 5` and opens a
new phase starting at `event[i+1].date`, while a gap less than or equal to
the threshold (equality included) keeps the phase list and its start
unchanged and moves the provisional end to `event[i+1].date`. -/
theorem phaseStep_branch_behaviour (threshold : ℚ) (phases : List RawPhase)
    (phaseFrom : ℚ) (phaseTo : Option ℚ) (a b : Event ℚ) :
    (b.date - a.date > threshold →
      phaseStep threshold (phases, phaseFrom, phaseTo) (a, b)
        = (phases ++ [⟨phaseFrom, some (a.date + 5)⟩], b.date, phaseTo))
    ∧ (b.date - a.date ≤ threshold →
      phaseStep threshold (phases, phaseFrom, phaseTo) (a, b)
        = (phases, phaseFrom, some b.date)) := by
  constructor
  · intro h
    simp only [phaseStep, if_pos h]
  · intro h
    simp only [phaseStep, if_neg (not_lt.mpr h)]

/-- Witness for C4: both branches evaluated at concrete inputs, with
threshold 240, a gap of 1000 minutes for the first branch and a gap of 10
minutes for the second. -/
theorem phaseStep_branch_behaviour_witness :
    (phaseStep 240 ([], 0, none)
        (⟨EventKind.commit, 0, 0⟩, ⟨EventKind.commit, 1000, 1⟩)
      = ([⟨0, some 5⟩], 1000, none))
    ∧ (phaseStep 240 ([], 0, none)
        (⟨EventKind.commit, 0, 0⟩, ⟨EventKind.commit, 10, 1⟩)
      = ([], 0, some 10)) :=
  ⟨by
    have h := (phaseStep_branch_behaviour 240 [] 0 none
      ⟨EventKind.commit, 0, 0⟩ ⟨EventKind.commit, 1000, 1⟩).1 (by norm_num)
    simpa using h,
   by
    have h := (phaseStep_branch_behaviour 240 [] 0 none
      ⟨EventKind.commit, 0, 0⟩ ⟨EventKind.commit, 10, 1⟩).2 (by norm_num)
    exact h⟩

/-- C5: a singleton timeline yields exactly one phase, but its end is the
still-`undefined` `phaseTo`, so the resulting luxon interval is invalid —
there is no explicit end satisfying `start <= end`. -/
theorem claim5_singleton_end_undefined (threshold : ℚ) (e : Event ℚ) :
    calculateWorkPhases threshold [e] = some [⟨e.date, none⟩]
    ∧ toInterval ⟨e.date, none⟩ = none :=
  ⟨rfl, rfl⟩

/-- C6 counterexample: with threshold 0 and events at minutes 0, 10 and
20, the result is not three one-instant phases (each with end equal to
its start). -/
theorem claim6_counterexample :
    calculateWorkPhases 0
        [⟨EventKind.commit, 0, 0⟩, ⟨EventKind.commit, 10, 1⟩,
          ⟨EventKind.commit, 20, 2⟩]
      ≠ some [⟨0, some 0⟩, ⟨10, some 10⟩, ⟨20, some 20⟩] := by
  norm_num [calculateWorkPhases, phaseStep]

/-- C6 amended: with threshold 0 and events at minutes 0, 10 and 20 the
code yields three phases, one per event; each of the first two ends five
minutes after its event (the padding applied on every close), and the
final phase's end is the never-assigned `undefined` `phaseTo`. -/
theorem claim6_padded_phases :
    calculateWorkPhases 0
        [⟨EventKind.commit, 0, 0⟩, ⟨EventKind.commit, 10, 1⟩,
          ⟨EventKind.commit, 20, 2⟩]
      = some [⟨0, some 5⟩, ⟨10, some 15⟩, ⟨20, none⟩] := by
  norm_num [calculateWorkPhases, phaseStep]

/-- When every consecutive gap is at most the threshold, the pairwise walk
never closes a phase: the accumulated phase list and the open phase's
start are untouched, and the provisional end finishes as the last event's
timestamp. -/
theorem phaseStep_fold_all_small (threshold : ℚ) :
    ∀ (rest : List (Event ℚ)) (a : Event ℚ) (acc : List RawPhase) (f : ℚ)
      (t : Option ℚ)
      (_ : List.Chain' (fun x y => y.date - x.date ≤ threshold) (a :: rest))
      (hne : rest ≠ []),
      ((a :: rest).zip rest).foldl (phaseStep threshold) (acc, f, t)
        = (acc, f, some (rest.getLast hne).date) := by
  intro rest
  induction rest with
  | nil => intro a acc f t _ hne; exact absurd rfl hne
  | cons b l ih =>
    intro a acc f t hchain _
    have hab : b.date - a.date ≤ threshold := (List.chain'_cons.mp hchain).1
    have htail : List.Chain' (fun x y => y.date - x.date ≤ threshold)
        (b :: l) := (List.chain'_cons.mp hchain).2
    rw [List.zip_cons_cons, List.foldl_cons]
    have hstep : phaseStep threshold (acc, f, t) (a, b) = (acc, f, some b.date) := by
      simp only [phaseStep, if_neg (not_lt.mpr hab)]
    rw [hstep]
    cases l with
    | nil => simp
    | cons c m =>
      rw [ih b acc f (some b.date) htail (List.cons_ne_nil c m)]
      rw [List.getLast_cons (List.cons_ne_nil c m)]

/-- C3 counterexample: two events 10 minutes apart with threshold 240
yield a single phase ending exactly at the last event's timestamp 10, and
10 differs from the claimed `10 + 5` (last timestamp plus padding). -/
theorem claim3_counterexample :
    calculateWorkPhases 240
        [⟨EventKind.commit, 0, 0⟩, ⟨EventKind.commit, 10, 1⟩]
      = some [⟨0, some 10⟩]
    ∧ (10 : ℚ) ≠ 10 + 5 := by
  constructor
  · norm_num [calculateWorkPhases, phaseStep]
  · norm_num

/-- C3 amended: for every sorted timeline of at least two events in which
every consecutive gap is at most the threshold, segmentation yields
exactly one phase, starting at the first event's timestamp and ending
exactly at the last event's timestamp — the 5-minute padding is not
applied to the final phase. -/
theorem claim3_single_phase (threshold : ℚ) (a : Event ℚ)
    (rest : List (Event ℚ)) (hne : rest ≠ [])
    (_hsorted : List.Chain' (fun x y => x.date ≤ y.date) (a :: rest))
    (hgap : List.Chain' (fun x y => y.date - x.date ≤ threshold) (a :: rest)) :
    calculateWorkPhases threshold (a :: rest)
      = some [⟨a.date, some (rest.getLast hne).date⟩] := by
  simp only [calculateWorkPhases, List.tail_cons]
  rw [phaseStep_fold_all_small threshold rest a [] a.date none hgap hne]
  simp

/-- Witness for C3's amended theorem: threshold 240, events at minutes 0
and 10, one phase from 0 to 10. -/
theorem claim3_single_phase_witness :
    calculateWorkPhases 240
        [⟨EventKind.commit, 0, 0⟩, ⟨EventKind.commit, 10, 1⟩]
      = some [⟨0, some 10⟩] := by
  have h := claim3_single_phase 240 ⟨EventKind.commit, 0, 0⟩
    [⟨EventKind.commit, 10, 1⟩] (List.cons_ne_nil _ _)
    (by rw [List.chain'_pair]; norm_num)
    (by rw [List.chain'_pair]; norm_num)
  simpa using h

/-- Each step of the pairwise walk appends exactly one phase when the gap
exceeds the threshold and none otherwise, so the accumulated phase list
grows by the number of strict gaps. -/
theorem phaseStep_fold_length (threshold : ℚ) :
    ∀ (ps : List (Event ℚ × Event ℚ)) (acc : List RawPhase) (f : ℚ)
      (t : Option ℚ),
      ((ps.foldl (phaseStep threshold) (acc, f, t)).1).length
        = acc.length
          + ps.countP (fun p => decide (p.2.date - p.1.date > threshold)) := by
  intro ps
  induction ps with
  | nil => intro acc f t; simp
  | cons p l ih =>
    intro acc f t
    rw [List.foldl_cons, List.countP_cons]
    by_cases h : p.2.date - p.1.date > threshold
    · have hstep : phaseStep threshold (acc, f, t) p
          = (acc ++ [⟨f, some (p.1.date + 5)⟩], p.2.date, t) := by
        simp only [phaseStep, if_pos h]
      rw [hstep, ih]
      simp [h]
      omega
    · have hstep : phaseStep threshold (acc, f, t) p = (acc, f, some p.2.date) := by
        simp only [phaseStep, if_neg h]
      rw [hstep, ih]
      simp [h]

/-- Throughout the pairwise walk, every accumulated phase start and the
currently open start is either the initial start or the second component
of one of the walked pairs. -/
theorem phaseStep_fold_froms (threshold : ℚ) :
    ∀ (ps : List (Event ℚ × Event ℚ)) (acc : List RawPhase) (f : ℚ)
      (t : Option ℚ),
      (∀ q ∈ (ps.foldl (phaseStep threshold) (acc, f, t)).1,
          q.from_ ∈ acc.map RawPhase.from_ ∨ q.from_ = f
            ∨ ∃ p ∈ ps, q.from_ = p.2.date)
      ∧ ((ps.foldl (phaseStep threshold) (acc, f, t)).2.1 = f
          ∨ ∃ p ∈ ps, (ps.foldl (phaseStep threshold) (acc, f, t)).2.1
              = p.2.date) := by
  intro ps
  induction ps with
  | nil =>
    intro acc f t
    constructor
    · intro q hq
      exact Or.inl (List.mem_map_of_mem RawPhase.from_ hq)
    · exact Or.inl rfl
  | cons p l ih =>
    intro acc f t
    rw [List.foldl_cons]
    by_cases h : p.2.date - p.1.date > threshold
    · have hstep : phaseStep threshold (acc, f, t) p
          = (acc ++ [⟨f, some (p.1.date + 5)⟩], p.2.date, t) := by
        simp only [phaseStep, if_pos h]
      rw [hstep]
      obtain ⟨ih1, ih2⟩ := ih (acc ++ [⟨f, some (p.1.date + 5)⟩]) p.2.date t
      constructor
      · intro q hq
        rcases ih1 q hq with hmem | heq | ⟨p', hp', he⟩
        · rw [List.map_append, List.mem_append] at hmem
          rcases hmem with hmem | hmem
          · exact Or.inl hmem
          · simp only [List.map_singleton, List.mem_singleton] at hmem
            exact Or.inr (Or.inl hmem)
        · exact Or.inr (Or.inr ⟨p, List.mem_cons_self p l, heq⟩)
        · exact Or.inr (Or.inr ⟨p', List.mem_cons_of_mem p hp', he⟩)
      · rcases ih2 with heq | ⟨p', hp', he⟩
        · exact Or.inr ⟨p, List.mem_cons_self p l, heq⟩
        · exact Or.inr ⟨p', List.mem_cons_of_mem p hp', he⟩
    · have hstep : phaseStep threshold (acc, f, t) p = (acc, f, some p.2.date) := by
        simp only [phaseStep, if_neg h]
      rw [hstep]
      obtain ⟨ih1, ih2⟩ := ih acc f (some p.2.date)
      constructor
      · intro q hq
        rcases ih1 q hq with hmem | heq | ⟨p', hp', he⟩
        · exact Or.inl hmem
        · exact Or.inr (Or.inl heq)
        · exact Or.inr (Or.inr ⟨p', List.mem_cons_of_mem p hp', he⟩)
      · rcases ih2 with heq | ⟨p', hp', he⟩
        · exact Or.inl heq
        · exact Or.inr ⟨p', List.mem_cons_of_mem p hp', he⟩

/-- C10: for every non-empty sorted timeline and every threshold, the
number of phases is one plus the number of consecutive pairs whose gap
strictly exceeds the threshold; hence at least 1 and at most the number
of events; and every phase's start is the timestamp of some event of the
timeline. -/
theorem claim10_phase_count (threshold : ℚ) (a : Event ℚ)
    (rest : List (Event ℚ))
    (_hsorted : List.Chain' (fun x y => x.date ≤ y.date) (a :: rest)) :
    ∃ ps, calculateWorkPhases threshold (a :: rest) = some ps
      ∧ ps.length = 1 + countStrictGaps threshold (a :: rest)
      ∧ 1 ≤ ps.length
      ∧ ps.length ≤ (a :: rest).length
      ∧ ∀ q ∈ ps, ∃ e ∈ a :: rest, q.from_ = e.date := by
  have hst : calculateWorkPhases threshold (a :: rest)
      = some ((((a :: rest).zip rest).foldl (phaseStep threshold)
            ([], a.date, none)).1
          ++ [⟨(((a :: rest).zip rest).foldl (phaseStep threshold)
                ([], a.date, none)).2.1,
              (((a :: rest).zip rest).foldl (phaseStep threshold)
                ([], a.date, none)).2.2⟩]) := rfl
  refine ⟨_, hst, ?_, ?_, ?_, ?_⟩
  · simp only [List.length_append, List.length_singleton]
    rw [phaseStep_fold_length threshold _ [] a.date none]
    simp only [List.tail_cons, List.length_nil, countStrictGaps]
    omega
  · simp
  · simp only [List.length_append, List.length_singleton]
    rw [phaseStep_fold_length threshold _ [] a.date none]
    have hcount := List.countP_le_length
      (l := (a :: rest).zip (a :: rest).tail)
      (p := fun p => decide (p.2.date - p.1.date > threshold))
    have hlen : ((a :: rest).zip (a :: rest).tail).length = rest.length := by
      simp [List.length_zip]
    simp only [List.tail_cons] at hcount hlen ⊢
    rw [hlen] at hcount
    simp only [List.length_nil, List.length_cons]
    omega
  · intro q hq
    rw [List.mem_append] at hq
    obtain ⟨h1, h2⟩ := phaseStep_fold_froms threshold
      ((a :: rest).zip (a :: rest).tail) [] a.date none
    have hpair : ∀ p : Event ℚ × Event ℚ,
        p ∈ (a :: rest).zip (a :: rest).tail → p.2 ∈ a :: rest := by
      intro p hp
      rcases p with ⟨x, y⟩
      simp only [List.tail_cons] at hp
      exact List.mem_cons_of_mem a (List.of_mem_zip hp).2
    rcases hq with hq | hq
    · rcases h1 q hq with hmem | heq | ⟨p', hp', he⟩
      · simp at hmem
      · exact ⟨a, List.mem_cons_self a rest, heq⟩
      · exact ⟨p'.2, hpair p' hp', he⟩
    · simp only [List.mem_singleton] at hq
      subst hq
      rcases h2 with heq | ⟨p', hp', he⟩
      · exact ⟨a, List.mem_cons_self a rest, heq⟩
      · exact ⟨p'.2, hpair p' hp', he⟩

/-- Witness for C10: threshold 240 and events at minutes 0, 10 and 1000 —
one strict gap, hence two phases, both bounds satisfied, every start an
event timestamp. -/
theorem claim10_phase_count_witness :
    ∃ ps, calculateWorkPhases 240
        [⟨EventKind.commit, 0, 0⟩, ⟨EventKind.commit, 10, 1⟩,
          ⟨EventKind.commit, 1000, 2⟩] = some ps
      ∧ ps.length = 1 + countStrictGaps 240
          [⟨EventKind.commit, 0, 0⟩, ⟨EventKind.commit, 10, 1⟩,
            ⟨EventKind.commit, 1000, 2⟩]
      ∧ 1 ≤ ps.length
      ∧ ps.length ≤ ([⟨EventKind.commit, 0, 0⟩, ⟨EventKind.commit, 10, 1⟩,
          ⟨EventKind.commit, 1000, 2⟩] : List (Event ℚ)).length
      ∧ ∀ q ∈ ps, ∃ e ∈ ([⟨EventKind.commit, 0, 0⟩, ⟨EventKind.commit, 10, 1⟩,
          ⟨EventKind.commit, 1000, 2⟩] : List (Event ℚ)), q.from_ = e.date :=
  claim10_phase_count 240 ⟨EventKind.commit, 0, 0⟩
    [⟨EventKind.commit, 10, 1⟩, ⟨EventKind.commit, 1000, 2⟩]
    (by
      rw [List.chain'_cons, List.chain'_pair]
      norm_num)

/-! ## Claims about the Interval Aggregator -/

/-- A successful luxon intersection is a strictly non-empty interval. -/
theorem intersection_pos (tf p iv : Iv) (h : Iv.intersection tf p = some iv) :
    iv.s < iv.e := by
  by_cases hc : min tf.e p.e ≤ max tf.s p.s
  · simp [Iv.intersection, hc] at h
  · simp only [Iv.intersection, if_neg hc] at h
    cases h
    exact lt_of_not_le hc

/-- Folding `addDuration` from a `none` accumulator stays `none`. -/
theorem foldl_addDuration_none (os : List (Option Iv)) :
    os.foldl addDuration none = none := by
  induction os with
  | nil => rfl
  | cons o l ih =>
    have hstep : addDuration none o = none := by cases o <;> rfl
    rw [List.foldl_cons, hstep]
    exact ih

/-- Folding `addDuration` over a list of present intervals adds up their
lengths. -/
theorem foldl_addDuration_map_some (ivs : List Iv) :
    ∀ a : ℚ, (ivs.map some).foldl addDuration (some a)
      = some (a + (ivs.map (fun p => p.e - p.s)).sum) := by
  induction ivs with
  | nil => intro a; simp
  | cons iv l ih =>
    intro a
    have hstep : addDuration (some a) (some iv) = some (a + (iv.e - iv.s)) := rfl
    rw [List.map_cons, List.foldl_cons, hstep, ih, List.map_cons,
      List.sum_cons]
    rw [add_assoc]

/-- Every summand added by `addDuration` comes from a successful
intersection and is therefore positive, so the accumulator never
decreases. -/
theorem foldl_addDuration_mono :
    ∀ (os : List (Option Iv)),
      (∀ o ∈ os, ∀ iv, o = some iv → iv.s < iv.e) →
      ∀ (a d : ℚ), os.foldl addDuration (some a) = some d → a ≤ d := by
  intro os
  induction os with
  | nil =>
    intro _ a d h
    simp only [List.foldl_nil, Option.some.injEq] at h
    exact le_of_eq h
  | cons o l ih =>
    intro hmem a d h
    cases o with
    | none =>
      have hstep : addDuration (some a) none = none := rfl
      rw [List.foldl_cons, hstep, foldl_addDuration_none] at h
      exact absurd h (by simp)
    | some iv =>
      have hstep : addDuration (some a) (some iv)
          = some (a + (iv.e - iv.s)) := rfl
      rw [List.foldl_cons, hstep] at h
      have hiv : iv.s < iv.e :=
        hmem (some iv) (List.mem_cons_self _ _) iv rfl
      have hrest := ih
        (fun o ho iv' h' => hmem o (List.mem_cons_of_mem _ ho) iv' h')
        (a + (iv.e - iv.s)) d h
      linarith

/-- C7 counterexample: the phase list `[[3, 3]]` is valid in the claim's
sense — sorted, pairwise disjoint, `start <= end` — and the query
interval `[0, 10]` contains its only phase, yet the aggregator crashes
(`none`): the zero-length phase passes the strict `overlaps` filter but
its intersection is `null`, and the `reduce` then throws. In particular
no duration, let alone the sum `0` of the phase durations, is returned. -/
theorem claim7_counterexample :
    getWorkDuringTimeframe [⟨3, 3⟩] ⟨0, 10⟩ = none
    ∧ getWorkDuringTimeframe [⟨3, 3⟩] ⟨0, 10⟩ ≠ some 0
    ∧ (3 : ℚ) ≤ 3 ∧ (0 : ℚ) ≤ 3 ∧ (3 : ℚ) ≤ 10 := by
  have h : getWorkDuringTimeframe [⟨3, 3⟩] ⟨0, 10⟩ = none := by
    norm_num [getWorkDuringTimeframe, Iv.overlaps, Iv.intersection,
      addDuration]
  refine ⟨h, by rw [h]; simp, by norm_num, by norm_num, by norm_num⟩

/-- C7 amended: for every phase list whose phases have strictly positive
length (`start < end`), pairwise disjoint and sorted, and every query
interval containing every phase, the aggregator returns the sum of the
individual phase durations; and whenever the aggregator returns a
duration at all, for any phase list and query interval, that duration is
non-negative. -/
theorem claim7_aggregator (phases : List Iv) (timeframe : Iv)
    (hpos : ∀ p ∈ phases, p.s < p.e)
    (_hdisj : List.Chain' (fun x y => x.e ≤ y.s) phases)
    (hcont : ∀ p ∈ phases, timeframe.s ≤ p.s ∧ p.e ≤ timeframe.e) :
    getWorkDuringTimeframe phases timeframe
      = some ((phases.map (fun p => p.e - p.s)).sum)
    ∧ ∀ (qs : List Iv) (q : Iv) (d : ℚ),
        getWorkDuringTimeframe qs q = some d → 0 ≤ d := by
  constructor
  · have hfilter : phases.filter (fun p => Iv.overlaps timeframe p)
        = phases := by
      rw [List.filter_eq_self]
      intro p hp
      have h1 := hpos p hp
      have h2 := hcont p hp
      simp only [Iv.overlaps, Bool.and_eq_true, decide_eq_true_eq]
      constructor
      · linarith [h2.2]
      · linarith [h2.1]
    have hmap : phases.map (fun p => Iv.intersection timeframe p)
        = phases.map some := by
      apply List.map_congr_left
      intro p hp
      have h1 := hpos p hp
      have h2 := hcont p hp
      have hs : max timeframe.s p.s = p.s := max_eq_right h2.1
      have he : min timeframe.e p.e = p.e := min_eq_right h2.2
      have hlt : ¬ (min timeframe.e p.e ≤ max timeframe.s p.s) := by
        rw [hs, he]; exact not_le.mpr h1
      simp only [Iv.intersection, if_neg hlt, hs, he]
      rw [if_neg (not_le.mpr h1)]
    rw [getWorkDuringTimeframe, hfilter, hmap,
      foldl_addDuration_map_some phases 0, zero_add]
  · intro qs q d h
    rw [getWorkDuringTimeframe] at h
    refine foldl_addDuration_mono _ ?_ 0 d h
    intro o ho iv h'
    rw [List.mem_map] at ho
    obtain ⟨p, _, hp⟩ := ho
    rw [← hp] at h'
    exact intersection_pos q p iv h'

/-- Witness for C7's amended theorem: phases `[1, 2]` and `[5, 9]` inside
the query `[0, 10]` give the duration `1 + 4 = 5`, which is
non-negative. -/
theorem claim7_aggregator_witness :
    getWorkDuringTimeframe [⟨1, 2⟩, ⟨5, 9⟩] ⟨0, 10⟩ = some 5
    ∧ (0 : ℚ) ≤ 5 := by
  have h := claim7_aggregator [⟨1, 2⟩, ⟨5, 9⟩] ⟨0, 10⟩
    (by norm_num)
    (by rw [List.chain'_pair]; norm_num)
    (by norm_num)
  constructor
  · rw [h.1]
    norm_num
  · exact h.2 [⟨1, 2⟩, ⟨5, 9⟩] ⟨0, 10⟩ 5 (by rw [h.1]; norm_num)

/-! ## Claims about the Timeline Builder -/

/-- The comparator of `gatherAllEvents` is transitive. -/
theorem eventLe_trans : ∀ (a b c : Event String),
    eventLe a b → eventLe b c → eventLe a c := by
  intro a b c hab hbc
  simp only [eventLe, decide_eq_true_eq] at hab hbc ⊢
  exact le_trans hab hbc

/-- The comparator of `gatherAllEvents` is total. -/
theorem eventLe_total : ∀ (a b : Event String),
    eventLe a b || eventLe b a := by
  intro a b
  simp only [eventLe]
  rcases le_total a.date b.date with h | h
  · simp [h]
  · simp [h]

/-- Stability of the timeline builder: for any date, the events carrying
exactly that date appear in the sorted timeline in their original
concatenation order. -/
theorem gatherAllEvents_filter_date
    (files : List (List (RawEntry String) × List (RawEntry String)))
    (d : String) :
    (gatherAllEvents files).filter (fun e => decide (e.date = d))
      = (concatAllEvents files).filter (fun e => decide (e.date = d)) := by
  set p : Event String → Bool := fun e => decide (e.date = d) with hp
  set l : List (Event String) := concatAllEvents files with hl
  have hBmem : ∀ e ∈ l.filter p, e.date = d := by
    intro e he
    have := (List.mem_filter.mp he).2
    simpa [hp] using this
  have hBpair : (l.filter p).Pairwise (fun a b => eventLe a b) := by
    apply List.pairwise_of_forall_mem_list
    intro a ha b hb
    have hda := hBmem a ha
    have hdb := hBmem b hb
    simp [eventLe, hda, hdb]
  have hBsub : List.Sublist (l.filter p) (l.mergeSort eventLe) :=
    List.sublist_mergeSort eventLe_trans eventLe_total hBpair
      (List.filter_sublist l)
  have hBsubA : List.Sublist (l.filter p) ((l.mergeSort eventLe).filter p) := by
    have h1 : List.Sublist ((l.filter p).filter p)
        ((l.mergeSort eventLe).filter p) :=
      List.Sublist.filter p hBsub
    rwa [List.filter_filter, show (fun a => p a && p a) = p from by
      funext a; cases p a <;> rfl] at h1
  have hperm : List.Perm ((l.mergeSort eventLe).filter p) (l.filter p) :=
    List.Perm.filter p (List.mergeSort_perm l eventLe)
  have hlen : (l.filter p).length = ((l.mergeSort eventLe).filter p).length :=
    hperm.length_eq.symm
  exact (List.Sublist.eq_of_length hBsubA hlen).symm

/-- C8: the Timeline Builder concatenates every file's commit and issue
collections and stably sorts the result ascending by date: the output is
a permutation of the concatenation, it is sorted, events with equal dates
keep their relative concatenation order, and the empty input yields the
empty timeline without failing. -/
theorem gatherAllEvents_spec
    (files : List (List (RawEntry String) × List (RawEntry String))) :
    (gatherAllEvents files).Perm (concatAllEvents files)
    ∧ (gatherAllEvents files).Pairwise (fun a b => a.date ≤ b.date)
    ∧ (∀ d : String,
        (gatherAllEvents files).filter (fun e => decide (e.date = d))
          = (concatAllEvents files).filter (fun e => decide (e.date = d)))
    ∧ gatherAllEvents
        ([] : List (List (RawEntry String) × List (RawEntry String)))
        = [] := by
  refine ⟨List.mergeSort_perm (concatAllEvents files) eventLe, ?_,
    gatherAllEvents_filter_date files, ?_⟩
  swap
  · rw [gatherAllEvents, show concatAllEvents
        ([] : List (List (RawEntry String) × List (RawEntry String)))
        = [] from rfl, List.mergeSort_nil]
  have h := List.sorted_mergeSort eventLe_trans eventLe_total
    (concatAllEvents files)
  exact h.imp (fun hab => by
    simpa [eventLe, decide_eq_true_eq] using hab)

/-! ## Claims about duplicate commits -/

/-- Invariant of the deduplicating fold of `src/fetch.mjs`: the hash list
mirrors the kept commits' shas, stays duplicate-free, the kept commits
extend the accumulator by an order-preserving selection of the input, no
already-seen sha is forgotten, and every processed commit's sha is
recorded. -/
theorem dedup_fold_inv :
    ∀ (cs : List RawCommit) (ps : List RawCommit) (hs : List String),
      hs = ps.map RawCommit.sha → hs.Nodup →
      ((cs.foldl dedupStep (ps, hs)).2
          = (cs.foldl dedupStep (ps, hs)).1.map RawCommit.sha)
      ∧ ((cs.foldl dedupStep (ps, hs)).2).Nodup
      ∧ (∃ ex, (cs.foldl dedupStep (ps, hs)).1 = ps ++ ex
          ∧ List.Sublist ex cs)
      ∧ (∀ s ∈ hs, s ∈ (cs.foldl dedupStep (ps, hs)).2)
      ∧ (∀ c ∈ cs, c.sha ∈ (cs.foldl dedupStep (ps, hs)).2) := by
  intro cs
  induction cs with
  | nil =>
    intro ps hs h1 h2
    exact ⟨h1, h2, ⟨[], by simp, List.nil_sublist []⟩, fun s hσ => hσ,
      fun c hc => absurd hc (List.not_mem_nil c)⟩
  | cons c l ih =>
    intro ps hs h1 h2
    rw [List.foldl_cons]
    by_cases hm : c.sha ∈ hs
    · have hc : dedupStep (ps, hs) c = (ps, hs) := by
        simp [dedupStep, List.contains, hm]
      rw [hc]
      obtain ⟨A, B, ⟨ex, hex, hsub⟩, E, D⟩ := ih ps hs h1 h2
      refine ⟨A, B, ⟨ex, hex, List.Sublist.cons c hsub⟩, E, ?_⟩
      intro x hx
      rcases List.mem_cons.mp hx with rfl | hx'
      · exact E _ hm
      · exact D x hx'
    · have hc : dedupStep (ps, hs) c = (ps ++ [c], hs ++ [c.sha]) := by
        simp [dedupStep, List.contains, hm]
      rw [hc]
      have h1' : hs ++ [c.sha] = (ps ++ [c]).map RawCommit.sha := by
        rw [List.map_append, h1]
        rfl
      have h2' : (hs ++ [c.sha]).Nodup := by
        rw [List.nodup_append]
        refine ⟨h2, List.nodup_singleton _, ?_⟩
        intro a ha hb
        rw [List.mem_singleton] at hb
        subst hb
        exact hm ha
      obtain ⟨A, B, ⟨ex, hex, hsub⟩, E, D⟩ := ih (ps ++ [c]) (hs ++ [c.sha])
        h1' h2'
      refine ⟨A, B, ⟨c :: ex, ?_, List.Sublist.cons₂ c hsub⟩, ?_, ?_⟩
      · rw [hex, List.append_assoc, List.singleton_append]
      · intro s hσ
        exact E s (List.mem_append_left _ hσ)
      · intro x hx
        rcases List.mem_cons.mp hx with rfl | hx'
        · exact E _ (List.mem_append_right _ (List.mem_singleton.mpr rfl))
        · exact D x hx'

/-- Once the duplicate check of `src/index.mjs` has thrown, the fold stays
in the error state. -/
theorem checkStep_fold_error (cs : List RawCommit) (e : String) :
    cs.foldl checkStep (Except.error e) = Except.error e := by
  induction cs with
  | nil => rfl
  | cons c l ih =>
    rw [List.foldl_cons]
    exact ih

/-- When the duplicate check of `src/index.mjs` succeeds, the shas it
walked over were pairwise distinct (relative to the already-seen ones). -/
theorem checkStep_fold_ok :
    ∀ (cs : List RawCommit) (hs r : List String),
      cs.foldl checkStep (Except.ok hs) = Except.ok r →
      hs.Nodup → (hs ++ cs.map RawCommit.sha).Nodup := by
  intro cs
  induction cs with
  | nil =>
    intro hs r _ h2
    simpa using h2
  | cons c l ih =>
    intro hs r h h2
    rw [List.foldl_cons] at h
    by_cases hm : c.sha ∈ hs
    · rw [show checkStep (Except.ok hs) c = Except.error "Duplicate!" from by
        simp [checkStep, List.contains, hm]] at h
      rw [checkStep_fold_error] at h
      exact absurd h (by simp)
    · rw [show checkStep (Except.ok hs) c = Except.ok (hs ++ [c.sha]) from by
        simp [checkStep, List.contains, hm]] at h
      have h2' : (hs ++ [c.sha]).Nodup := by
        rw [List.nodup_append]
        refine ⟨h2, List.nodup_singleton _, ?_⟩
        intro a ha hb
        rw [List.mem_singleton] at hb
        subst hb
        exact hm ha
      have := ih (hs ++ [c.sha]) r h h2'
      rwa [List.append_assoc, List.singleton_append] at this

/-- C9 counterexample: a commit whose sha appears both in the main commit
list and inside a pull request's commit list — exactly the claim's
example — makes the `src/index.mjs` variant abort with
`Error('Duplicate!')` instead of deduplicating; the `src/fetch.mjs`
variant keeps the first occurrence. -/
theorem claim9_counterexample :
    getCommitData_index [⟨"a", false⟩] [[⟨"a", false⟩]]
      = Except.error "Duplicate!"
    ∧ getCommitData_fetch [⟨"a", false⟩] [[⟨"a", false⟩]]
      = [⟨"a", false⟩] :=
  ⟨rfl, rfl⟩

/-- C9 amended: the `src/fetch.mjs` variant deduplicates by sha, keeping
the first occurrence in order (its output is an order-preserving
selection of the plain commits, the written shas are pairwise distinct,
and no sha is lost); the `src/index.mjs` variant does not deduplicate —
it aborts on any duplicate — so whenever it does return a list, that
list is the unmodified plain commit list and its shas were already
pairwise distinct. -/
theorem claim9_dedup (commits : List RawCommit)
    (prCommits : List (List RawCommit)) :
    ((getCommitData_fetch commits prCommits).map RawCommit.sha).Nodup
    ∧ List.Sublist (getCommitData_fetch commits prCommits)
        (filterPlainCommits (commits ++ prCommits.flatten))
    ∧ (∀ c ∈ filterPlainCommits (commits ++ prCommits.flatten),
        c.sha ∈ (getCommitData_fetch commits prCommits).map RawCommit.sha)
    ∧ ∀ out, getCommitData_index commits prCommits = Except.ok out →
        out = filterPlainCommits (commits ++ prCommits.flatten)
        ∧ (out.map RawCommit.sha).Nodup := by
  obtain ⟨A, B, ⟨ex, hex, hsub⟩, _, D⟩ :=
    dedup_fold_inv (filterPlainCommits (commits ++ prCommits.flatten)) [] []
      rfl List.nodup_nil
  refine ⟨?_, ?_, ?_, ?_⟩
  · rw [getCommitData_fetch, dedupBySha, ← A]
    exact B
  · rw [getCommitData_fetch, dedupBySha, hex, List.nil_append]
    exact hsub
  · intro c hc
    have := D c hc
    rw [A] at this
    rw [getCommitData_fetch, dedupBySha]
    exact this
  · intro out hout
    rw [getCommitData_index] at hout
    rcases hck : checkDuplicates
        (filterPlainCommits (commits ++ prCommits.flatten)) with e | r
    · rw [hck] at hout
      exact absurd hout (by simp [Except.map])
    · rw [hck] at hout
      simp only [Except.map, Except.ok.injEq] at hout
      subst hout
      refine ⟨rfl, ?_⟩
      have := checkStep_fold_ok
        (filterPlainCommits (commits ++ prCommits.flatten)) [] r hck
        List.nodup_nil
      simpa using this

/-- Witness for C9's amended theorem: distinct shas `"a"` and `"b"`, one
from the main list and one from a pull request; the index variant
succeeds and returns the unmodified plain list with distinct shas. -/
theorem claim9_dedup_witness :
    ([⟨"a", false⟩, ⟨"b", false⟩] : List RawCommit)
        = filterPlainCommits ([⟨"a", false⟩] ++ [[⟨"b", false⟩]].flatten)
    ∧ (([⟨"a", false⟩, ⟨"b", false⟩] : List RawCommit).map
        RawCommit.sha).Nodup :=
  (claim9_dedup [⟨"a", false⟩] [[⟨"b", false⟩]]).2.2.2
    [⟨"a", false⟩, ⟨"b", false⟩] rfl

end TimeTracker
